import Mathlib

/-!
# The worker pool of `xuwei0455/slaves`

A shallow embedding of `job.go`, `pool.go` and `slave.go`, followed by the
properties of the pool that the specification states.

Conventions of the embedding.

* Go pointers are addresses (`Nat`).  A worker (`*Evil`) carries its own
  address and the handle of its delivery channel; job objects live in a heap
  indexed by address.
* `time.Time` and `time.Duration` are integers counting nanoseconds of the
  process-monotonic clock, so that `t.After(u)` is `u < t`.
* A critical section (the code between `p.lock.Lock()` and the matching
  `p.lock.Unlock()`) is one atomic step; statements outside a critical
  section are steps of their own and interleave with the steps of the other
  goroutines.
* A Go run-time panic is a `Fault`.
-/

namespace Slaves

/-! ## Data model -/

/-- Reading of the monotonic clock (`time.Time`), in nanoseconds. -/
abbrev Time := Int

/-- A `time.Duration`: a signed number of nanoseconds. -/
abbrev Duration := Int

/-- The constant `time.Second`. -/
def Second : Duration := 1000000000

/-- The constant `time.Minute`. -/
def Minute : Duration := 60 * Second

/-- Run-time failures of the embedded code. -/
inductive Fault where
  /-- An explicit `panic(msg)`. -/
  | panic (msg : String)
  /-- Indexing a slice outside `0 ..< len`. -/
  | indexOutOfRange
  /-- Slicing outside the bounds of the slice. -/
  | sliceOutOfRange
  /-- The loop did not finish within the iterations granted. -/
  | outOfFuel
deriving DecidableEq, Repr

/-- The struct `Evil` of pool.go (a worker).  `addr` is the address of the
object (workers are handled through `*Evil`), `ch` the handle of the channel
made for it. -/
structure Evil where
  addr : Nat
  lastUseTime : Time
  ch : Nat
deriving DecidableEq, Repr

/-- The struct `Pool` of pool.go.  `stopCh` and `cond` carry no data; `locked`
is the state of `lock`. -/
structure Pool where
  EvilMaxCount : Int
  EvilMaxIdleDuration : Duration
  evils : List Evil
  evCount : Int
  mustStop : Bool
  locked : Bool
deriving DecidableEq, Repr

/-- Modelled from the spec: the declaration of `Options` is not among the
sources; its two fields are the ones that `New` fills and `newPool` reads, the
maximal worker count and the maximal idle duration. -/
structure Options where
  EvilMaxCount : Int
  EvilMaxIdleDuration : Duration
deriving DecidableEq, Repr

/-- The struct `Job` of job.go.  `task` is the submitted closure (of an
arbitrary type `τ`), `result` the `interface{}` value (`none` is `nil`), `wg`
the address of the shared `sync.WaitGroup`. -/
structure Job (τ : Type) where
  id : String
  task : τ
  finished : Bool
  success : Bool
  result : Option Nat
  wg : Nat
deriving DecidableEq, Repr

/-- The free list is in non-decreasing order of `lastUseTime`. -/
def SortedByLastUse (evils : List Evil) : Prop :=
  evils.Pairwise (fun a b => a.lastUseTime ≤ b.lastUseTime)

instance (evils : List Evil) : Decidable (SortedByLastUse evils) := by
  unfold SortedByLastUse
  infer_instance

/-! ## pool.go: `get`, `release`, `getMaxIdleWorkerDuration`, `clean` -/

/-- Function `Pool.get`, lines 157-183.  `heap` is the next free address: a created
worker takes `heap` for its channel and `heap + 1` for itself.  The result is
the worker returned (`none` for `nil`), the pool afterwards and the next free
address.  On the `nil` return the lock stays held: `do` goes on to
`p.cond.Wait()`.  The goroutine started at line 175 is kept track of by
`World.step`.  `p.evCount++` cannot overflow, being below `EvilMaxCount`. -/
def Pool.get (p : Pool) (heap : Nat) : Option Evil × Pool × Nat :=
  match p.evils with
  | [] =>
    if p.evCount < p.EvilMaxCount then
      (some { addr := heap + 1, lastUseTime := 0, ch := heap },
        { p with evCount := p.evCount + 1, locked := false }, heap + 2)
    else
      (none, { p with locked := true }, heap)
  | ev :: rest =>
    (some ev, { p with evils := rest, locked := false }, heap)

/-- First statement of `Pool.release`, line 114, executed before the lock is
taken: `ev.lastUseTime = time.Now()`. -/
def Evil.stamp (ev : Evil) (now : Time) : Evil :=
  { ev with lastUseTime := now }

/-- Critical section of `Pool.release`, lines 116-125. -/
def Pool.releaseLocked (p : Pool) (ev : Evil) : Bool × Pool :=
  if p.mustStop then
    (false, { p with locked := false })
  else
    (true, { p with evils := p.evils ++ [ev], locked := false })

/-- Function `Pool.release` run without interruption, lines 113-126. -/
def Pool.release (p : Pool) (ev : Evil) (now : Time) : Bool × Pool :=
  p.releaseLocked (ev.stamp now)

/-- Function `Pool.getMaxIdleWorkerDuration`, lines 185-190. -/
def Pool.getMaxIdleWorkerDuration (p : Pool) : Duration :=
  if p.EvilMaxIdleDuration ≤ 0 then 10 * Second else p.EvilMaxIdleDuration

/-- The binary-search loop of `Pool.clean`, lines 204-211, from the values
`l` and `r`, granted `fuel` iterations.  `(l + r) / 2` is Go's truncating
division (the sum of two indices of a slice does not overflow) and
`p.evils[mid]` is bounds-checked. -/
def Pool.cleanSearch (evils : List Evil) (criticalTime : Time) :
    Nat → Int → Int → Except Fault Int
  | 0, _, _ => .error .outOfFuel
  | fuel + 1, l, r =>
    if l ≤ r then
      let mid := Int.tdiv (l + r) 2
      if mid < 0 then .error .indexOutOfRange
      else
        match evils[mid.toNat]? with
        | none => .error .indexOutOfRange
        | some ev =>
          if ev.lastUseTime < criticalTime then
            Pool.cleanSearch evils criticalTime fuel (mid + 1) r
          else
            Pool.cleanSearch evils criticalTime fuel l (mid - 1)
    else .ok r

/-- The builtin `copy(dst, src)`: the slice `dst` afterwards and the number of
elements copied. -/
def copySlice {α : Type} (dst src : List α) : List α × Nat :=
  let m := min dst.length src.length
  (src.take m ++ dst.drop m, m)

/-- Function `Pool.clean`, lines 192-235: the pool afterwards and the workers that are
sent the `nil` job at line 232 (the content of `*scratch`, in order).  The
loop of lines 220-222 clears the part of the backing array beyond the new
length and does not show in the slice. -/
def Pool.clean (p : Pool) (now : Time) : Except Fault (Pool × List Evil) :=
  let maxIdleWorkerDuration := p.getMaxIdleWorkerDuration
  let criticalTime := now - maxIdleWorkerDuration
  let n := p.evils.length
  match Pool.cleanSearch p.evils criticalTime (n + 1) 0 ((n : Int) - 1) with
  | .error f => .error f
  | .ok i =>
    if i = -1 then .ok ({ p with locked := false }, [])
    else if i + 1 < 0 ∨ (n : Int) < i + 1 then .error .sliceOutOfRange
    else
      let k := (i + 1).toNat
      let scratch := p.evils.take k
      let (buf, m) := copySlice p.evils (p.evils.drop k)
      .ok ({ p with evils := buf.take m, locked := false }, scratch)


/-! ## pool.go: the singleton and `newPool` -/

/-- The `Pool` object built inside `once.Do` at lines 68-75: the two options
copied, every other field at its zero value. -/
def Pool.ofOptions (opt : Options) : Pool :=
  { EvilMaxCount := opt.EvilMaxCount
    EvilMaxIdleDuration := opt.EvilMaxIdleDuration
    evils := []
    evCount := 0
    mustStop := false
    locked := false }

/-- The package-level state of pool.go: the variable `p` (`none` is `nil`), the
state of `once`, the `Pool` objects allocated so far (the address of an object
is its index) and the number of scavenger goroutines started at line 77. -/
structure Globals where
  p : Option Nat
  once : Bool
  pools : List Pool
  cleaners : Nat
deriving DecidableEq, Repr

/-- The package state when the program starts. -/
def Globals.init : Globals :=
  { p := none, once := false, pools := [], cleaners := 0 }

/-- Function `newPool`, lines 67-90: the package state afterwards and the pointer
returned. -/
def newPool (g : Globals) (opt : Options) : Globals × Option Nat :=
  let g1 : Globals :=
    if g.once then g
    else { g with once := true, p := some g.pools.length, pools := g.pools ++ [Pool.ofOptions opt] }
  let g2 : Globals := { g1 with cleaners := g1.cleaners + 1 }
  (g2, g2.p)

/-! ## job.go -/

/-- Function `newJob`, lines 42-44. -/
def newJob {τ : Type} (task : τ) (wg : Nat) : Job τ :=
  { id := "", task := task, finished := false, success := false, result := none, wg := wg }

/-- The memory a worker touches when it executes a job: the `Job` objects (the
address of a job is its index), the counter of the `sync.WaitGroup` the jobs
share, and the log of the tasks invoked, in order of invocation. -/
structure Mem (τ : Type) where
  jobs : List (Job τ)
  counter : Int
  ran : List τ

/-- Function `Job.Success`, lines 46-49: `none` while `j.wg.Wait()` blocks (or when `a`
is not the address of a job), else the value returned and the memory
afterwards. -/
def Job.Success {τ : Type} (m : Mem τ) (a : Nat) : Option (Bool × Mem τ) :=
  if m.counter = 0 then (m.jobs[a]?).map (fun j => (j.success, m)) else none

/-- Function `Job.Result`, lines 51-54, as `Job.Success`. -/
def Job.Result {τ : Type} (m : Mem τ) (a : Nat) : Option (Option Nat × Mem τ) :=
  if m.counter = 0 then (m.jobs[a]?).map (fun j => (j.result, m)) else none

/-! ## pool.go: the worker loop `run` -/

/-- The statements of one iteration of `Pool.run` that act on the job, in
program order: line 98 `job.task()`, line 99 `job.wg.Done()`, line 101
`job.finished = true`. -/
inductive Stmt where
  | callTask
  | wgDone
  | setFinished
deriving DecidableEq, Repr

/-- The body of the loop of `Pool.run` between the `nil` test and the call of
`release`, lines 98-101. -/
def jobStmts : List Stmt := [.callTask, .wgDone, .setFinished]

/-- One statement of the loop body, on the job at address `a`.  The task is
taken to return; `Done` on a counter at zero is the panic of `sync`. -/
def Stmt.exec {τ : Type} (a : Nat) : Stmt → Mem τ → Except Fault (Mem τ)
  | .callTask, m =>
    match m.jobs[a]? with
    | none => .error (.panic "nil pointer dereference")
    | some j => .ok { m with ran := m.ran ++ [j.task] }
  | .wgDone, m =>
    if m.counter - 1 < 0 then .error (.panic "sync: negative WaitGroup counter")
    else .ok { m with counter := m.counter - 1 }
  | .setFinished, m =>
    match m.jobs[a]? with
    | none => .error (.panic "nil pointer dereference")
    | some j => .ok { m with jobs := m.jobs.set a { j with finished := true } }

/-- A sequence of statements on the job at address `a`. -/
def execStmts {τ : Type} (a : Nat) : List Stmt → Mem τ → Except Fault (Mem τ)
  | [], m => .ok m
  | s :: rest, m =>
    match s.exec a m with
    | .error f => .error f
    | .ok m' => execStmts a rest m'

/-- How one pass through the loop of `Pool.run` ends. -/
inductive Outcome (τ : Type) where
  /-- The goroutine panicked. -/
  | fault (f : Fault)
  /-- The worker is back at the receive of line 93. -/
  | next (m : Mem τ) (p : Pool)
  /-- The loop was left and lines 108-110 were executed. -/
  | exit (m : Mem τ) (p : Pool)

/-- One pass through the loop of `Pool.run`, lines 93-110, for the value `item`
received from `ev.ch` (`none` is the `nil` job), `now` being the clock read by
`release`. -/
def Pool.runIteration {τ : Type} (p : Pool) (m : Mem τ) (ev : Evil) (item : Option Nat)
    (now : Time) : Outcome τ :=
  match item with
  | none => .fault (.panic "BUG: no job!")
  | some a =>
    match execStmts a jobStmts m with
    | .error f => .fault f
    | .ok m' =>
      match p.release ev now with
      | (true, p') => .next m' p'
      | (false, p') => .exit m' { p' with evCount := p'.evCount - 1 }

/-- What the workers evicted by `clean` do with the `nil` job of line 232:
the outcomes of their next pass through the loop, in order. -/
def notifyEvicted {τ : Type} (p : Pool) (m : Mem τ) (evicted : List Evil) (now : Time) :
    List (Outcome τ) :=
  evicted.map (fun ev => p.runIteration m ev none now)

/-! ## slave.go -/

/-- The variable `DefaultEvilMaxCount`. -/
def DefaultEvilMaxCount : Int := 512 * 1024

/-- The variable `DefaultEvilMaxIdleDuration`. -/
def DefaultEvilMaxIdleDuration : Duration := 10 * Minute

/-- The struct `Slave` of slave.go: `Jobs` holds the addresses of the jobs,
`pool` the pointer returned by `newPool`, `wg` the address of the
`sync.WaitGroup`; `stop` carries no data. -/
structure Slave where
  Jobs : List Nat
  pool : Option Nat
  wg : Nat
deriving DecidableEq, Repr

/-- Function `New`, lines 78-94.  An `OptionFunc` updates the options in place; `wg` is
the address handed out by `utils.AcquireWG()`. -/
def New (g : Globals) (optFunc : List (Options → Options)) (wg : Nat) : Globals × Slave :=
  let opt := optFunc.foldl (fun o f => f o)
    { EvilMaxCount := DefaultEvilMaxCount, EvilMaxIdleDuration := DefaultEvilMaxIdleDuration }
  let r := newPool g opt
  (r.1, { Jobs := [], pool := r.2, wg := wg })

/-- A `Slave` with the memory of its jobs and the jobs that `pool.do` has put
on a worker channel and that no worker has taken yet. -/
structure SlaveWorld (τ : Type) where
  s : Slave
  mem : Mem τ
  queue : List Nat

/-- Modelled from the spec: `utils.AcquireWG` is not among the sources; the
completion barrier it hands out is a `sync.WaitGroup` on which nothing is
pending, its counter at zero. -/
def acquiredCounter : Int := 0

/-- The world right after `New`: no job yet, the barrier as acquired. -/
def SlaveWorld.fresh {τ : Type} (s : Slave) : SlaveWorld τ :=
  { s := s, mem := { jobs := [], counter := acquiredCounter, ran := [] }, queue := [] }

/-- Function `Slave.Add`, lines 96-104: the address of the job returned and the world
afterwards. -/
def Slave.Add {τ : Type} (w : SlaveWorld τ) (task : τ) : Nat × SlaveWorld τ :=
  let job := newJob task w.s.wg
  let a := w.mem.jobs.length
  (a, { s := { w.s with Jobs := w.s.Jobs ++ [a] }
        mem := { w.mem with jobs := w.mem.jobs ++ [job], counter := w.mem.counter + 1 }
        queue := w.queue ++ [a] })

/-- Function `Slave.Join`, lines 106-112: `none` while `s.wg.Wait()` blocks. -/
def Slave.Join {τ : Type} (w : SlaveWorld τ) : Option (List Nat) :=
  if w.mem.counter = 0 then some w.s.Jobs else none

/-- A worker takes the job at address `a` from its channel and executes lines
98-101 on it. -/
def SlaveWorld.exec {τ : Type} (w : SlaveWorld τ) (a : Nat) : Option (SlaveWorld τ) :=
  if a ∈ w.queue then
    match execStmts a jobStmts w.mem with
    | .error _ => none
    | .ok m => some { w with mem := m, queue := w.queue.erase a }
  else none

/-- What happens around one `Slave`: a call of `Add`, or a worker executing a
job. -/
inductive Event (τ : Type) where
  | add (task : τ)
  | exec (a : Nat)

/-- The tasks submitted by a sequence of events, in order. -/
def submitted {τ : Type} : List (Event τ) → List τ
  | [] => []
  | .add t :: evs => t :: submitted evs
  | .exec _ :: evs => submitted evs

/-- Runs a sequence of events: the addresses returned by the calls of `Add`, in
order, and the world afterwards; `none` when an event cannot happen. -/
def SlaveWorld.run {τ : Type} : SlaveWorld τ → List (Event τ) → Option (List Nat × SlaveWorld τ)
  | w, [] => some ([], w)
  | w, .add t :: evs =>
    match SlaveWorld.run (Slave.Add w t).2 evs with
    | none => none
    | some (hs, w') => some ((Slave.Add w t).1 :: hs, w')
  | w, .exec a :: evs =>
    match w.exec a with
    | none => none
    | some w1 => SlaveWorld.run w1 evs


/-- The addresses of the jobs that the workers execute in a sequence of
events, in order of execution. -/
def executed {τ : Type} : List (Event τ) → List Nat
  | [] => []
  | .add _ :: evs => executed evs
  | .exec a :: evs => a :: executed evs

/-- The shared variable `result` of `TestPool_Run_ASYNC` (pool_test.go lines
24-32) after the tasks of `ran` were invoked in that order, the task `t` being
the closure that adds `val t`; `result += n` is taken as one step. -/
def accumulate {τ : Type} (val : τ → Int) (ran : List τ) : Int :=
  ran.foldl (fun result t => result + val t) 0

/-! ## The pool and its goroutines as a transition system -/

/-- The pool together with the goroutines around it: the next free address,
the clock, the addresses of the workers whose `run` has not returned, the
workers handed out by `get` that have not reached `release`, and the workers
that have executed line 114 of `release` and not yet lines 116-125. -/
structure World where
  pool : Pool
  heap : Nat
  now : Time
  live : List Nat
  working : List Evil
  stamped : List Evil
deriving DecidableEq, Repr

/-- The world after the first `newPool`, the clock reading `start`. -/
def World.init (opt : Options) (start : Time) : World :=
  { pool := Pool.ofOptions opt, heap := 0, now := start, live := [], working := [], stamped := [] }

/-- The atomic steps of the goroutines. -/
inductive Action where
  /-- The clock advances by `d` nanoseconds. -/
  | tick (d : Nat)
  /-- A submitter executes `get`; on `nil`, `do` releases the lock in
  `p.cond.Wait()`. -/
  | get
  /-- The worker at address `a` executes line 114 of `release`. -/
  | stamp (a : Nat)
  /-- The worker at address `a` executes lines 116-125 of `release`. -/
  | enqueue (a : Nat)
  /-- The scavenger executes lines 199-224 of `clean`, having read the clock at
  line 197 `lag` nanoseconds ago. -/
  | clean (lag : Nat)
  /-- The worker at address `a` leaves `run` through lines 108-110. -/
  | exit (a : Nat)
deriving DecidableEq, Repr

/-- One step; `none` when the step cannot be taken. -/
def World.step (w : World) : Action → Option World
  | .tick d => some { w with now := w.now + d }
  | .get =>
    match w.pool.get w.heap with
    | (some ev, p, h) =>
      some { w with
        pool := p, heap := h, working := w.working ++ [ev],
        live := if h = w.heap then w.live else w.live ++ [ev.addr] }
    | (none, p, h) => some { w with pool := { p with locked := false }, heap := h }
  | .stamp a =>
    match w.working.find? (fun ev => ev.addr = a) with
    | none => none
    | some ev =>
      if a ∈ w.live then
        some { w with working := w.working.erase ev, stamped := w.stamped ++ [ev.stamp w.now] }
      else none
  | .enqueue a =>
    match w.stamped.find? (fun ev => ev.addr = a) with
    | none => none
    | some ev =>
      if a ∈ w.live then
        some { w with pool := (w.pool.releaseLocked ev).2, stamped := w.stamped.erase ev }
      else none
  | .clean lag =>
    match w.pool.clean (w.now - lag) with
    | .error _ => none
    | .ok (p, _) => some { w with pool := p }
  | .exit a =>
    if a ∈ w.live then
      some { w with
        live := w.live.erase a, pool := { w.pool with evCount := w.pool.evCount - 1 } }
    else none

/-- A sequence of steps. -/
def World.run : World → List Action → Option World
  | w, [] => some w
  | w, act :: acts =>
    match w.step act with
    | none => none
    | some w' => World.run w' acts

/-- Every `release` of the schedule runs without another step between its line
114 and its critical section. -/
def atomicReleases : List Action → Bool
  | [] => true
  | .stamp a :: .enqueue b :: acts => a == b && atomicReleases acts
  | .stamp _ :: _ => false
  | .enqueue _ :: _ => false
  | _ :: acts => atomicReleases acts


/-! ## Invariants -/

/-- What the development maintains about the world of a `Slave`. -/
def SlaveWorld.Inv {τ : Type} (w : SlaveWorld τ) : Prop :=
  w.s.Jobs = List.range w.mem.jobs.length ∧
  w.mem.counter = (w.queue.length : Int) ∧
  (∀ a ∈ w.queue, a < w.mem.jobs.length) ∧
  (∀ j ∈ w.mem.jobs, j.success = false)

/-- The bookkeeping of the workers: `evCount` counts the workers whose `run`
has not returned, each of them once and at an address already handed out, and
does not exceed `EvilMaxCount`. -/
def World.CountInv (w : World) : Prop :=
  w.pool.evCount = (w.live.length : Int) ∧
  w.pool.evCount ≤ w.pool.EvilMaxCount ∧
  w.live.Nodup ∧
  (∀ a ∈ w.live, a < w.heap)

/-- The free list is sorted, none of its stamps is ahead of the clock, and no
worker is between line 114 and the critical section of `release`. -/
def World.SortedInv (w : World) : Prop :=
  SortedByLastUse w.pool.evils ∧ (∀ ev ∈ w.pool.evils, ev.lastUseTime ≤ w.now) ∧ w.stamped = []


/-! ## Sample inputs -/

/-- A pool of four idle workers, last used at 1, 4, 7 and 9, with a maximal
idle duration of 5. -/
def idlePool : Pool :=
  { EvilMaxCount := 4
    EvilMaxIdleDuration := 5
    evils := [{ addr := 1, lastUseTime := 1, ch := 0 }, { addr := 3, lastUseTime := 4, ch := 2 },
      { addr := 5, lastUseTime := 7, ch := 4 }, { addr := 7, lastUseTime := 9, ch := 6 }]
    evCount := 4
    mustStop := false
    locked := false }

/-- A schedule on a pool of at most two workers: three submissions, two
releases, a sweep, a worker leaving, two more submissions. -/
def sampleSchedule : List Action :=
  [.get, .get, .get, .tick 1, .stamp 1, .enqueue 1, .tick 1, .stamp 3, .enqueue 3,
    .tick 5, .clean 0, .exit 1, .get, .get]

/-- Three tasks (named by numbers) submitted to one `Slave`, two of them
executed. -/
def sampleEvents : List (Event Nat) :=
  [.add 5, .add 6, .exec 1, .add 9, .exec 0]

/-- The eleven tasks of `TestPool_Run_ASYNC` (each named by the integer it
adds) submitted in the order of the test, the workers executing them in
another order, some before the last submission. -/
def sumEvents : List (Event Int) :=
  [.add 0, .add 1, .add 2, .exec 2, .add 3, .add 4, .exec 0, .add 5, .add 6, .exec 6,
    .exec 1, .add 7, .add 8, .add 9, .exec 9, .add 10, .exec 10, .exec 3, .exec 8,
    .exec 4, .exec 7, .exec 5]

/-! # Properties -/
/-! ## Lemmas on lists -/

theorem sorted_getElem?_le {evils : List Evil} (hs : SortedByLastUse evils)
    {i j : Nat} {a b : Evil} (hi : evils[i]? = some a) (hj : evils[j]? = some b)
    (hij : i ≤ j) : a.lastUseTime ≤ b.lastUseTime := by
  rcases Nat.eq_or_lt_of_le hij with h | h
  · subst h
    rw [hi] at hj
    cases hj
    exact le_refl _
  · obtain ⟨hi', rfl⟩ := List.getElem?_eq_some.mp hi
    obtain ⟨hj', rfl⟩ := List.getElem?_eq_some.mp hj
    exact (List.pairwise_iff_getElem.mp hs) i j hi' hj' h

theorem filter_eq_take_of_split {α : Type} (P : α → Bool) :
    ∀ (l : List α) (k : Nat), k ≤ l.length →
      (∀ (j : Nat) (e : α), l[j]? = some e → (P e = true ↔ j < k)) →
      l.filter P = l.take k ∧ l.filter (fun e => !P e) = l.drop k
  | [], k, _, _ => by simp
  | x :: xs, 0, _, h => by
    have hx : ∀ e ∈ x :: xs, P e = false := by
      intro e he
      obtain ⟨j, hj⟩ := List.getElem?_of_mem he
      have := h j e hj
      simpa using this
    constructor
    · simp only [List.take_zero, List.filter_eq_nil_iff]
      intro e he
      simp [hx e he]
    · simp only [List.drop_zero, List.filter_eq_self]
      intro e he
      simp [hx e he]
  | x :: xs, k + 1, hk, h => by
    have hx : P x = true := (h 0 x (by simp)).mpr (Nat.succ_pos k)
    have ih := filter_eq_take_of_split P xs k (by simpa using hk) (fun j e hj => by
      have := h (j + 1) e (by simpa using hj)
      simpa using this)
    simp [List.filter_cons, hx, ih.1, ih.2]

theorem copySlice_drop_take {α : Type} (l : List α) (k : Nat) :
    (copySlice l (l.drop k)).1.take (copySlice l (l.drop k)).2 = l.drop k := by
  simp only [copySlice, List.length_drop]
  have hm : min l.length (l.length - k) = l.length - k := by omega
  rw [hm]
  rw [List.take_append_of_le_length (by simp)]
  simp [List.take_take]


/-! ## The binary search of `clean` -/

theorem cleanSearch_ok {evils : List Evil} (c : Time) (hs : SortedByLastUse evils) :
    ∀ (fuel : Nat) (l r : Int), 0 ≤ l → r < evils.length → l ≤ r + 1 → r - l + 1 < fuel →
      (∀ (j : Nat) (e : Evil), evils[j]? = some e → (j : Int) < l → e.lastUseTime < c) →
      (∀ (j : Nat) (e : Evil), evils[j]? = some e → r < (j : Int) → ¬ e.lastUseTime < c) →
      ∃ i : Int, Pool.cleanSearch evils c fuel l r = .ok i ∧ -1 ≤ i ∧ i < evils.length ∧
        ∀ (j : Nat) (e : Evil), evils[j]? = some e → (e.lastUseTime < c ↔ (j : Int) ≤ i)
  | 0, l, r, _, _, _, hf, _, _ => by omega
  | fuel + 1, l, r, hl, hr, hlr, hf, hlo, hhi => by
    unfold Pool.cleanSearch
    by_cases hle : l ≤ r
    · have hmid : Int.tdiv (l + r) 2 = (l + r) / 2 :=
        Int.tdiv_eq_ediv (by omega) (by norm_num)
      simp only [hle, if_true, hmid]
      obtain ⟨m, hm⟩ : ∃ m : Nat, (l + r) / 2 = (m : Int) :=
        ⟨((l + r) / 2).toNat, (Int.toNat_of_nonneg (by omega)).symm⟩
      have hml : l ≤ (m : Int) := by omega
      have hmr : (m : Int) ≤ r := by omega
      rw [hm]
      have h0 : ¬ (m : Int) < 0 := by omega
      simp only [h0, if_false, Int.toNat_ofNat]
      have hlt : m < evils.length := by omega
      have hget : evils[m]? = some (evils[m]) := List.getElem?_eq_getElem hlt
      rw [hget]
      simp only
      by_cases hc : (evils[m]).lastUseTime < c
      · simp only [hc, if_true]
        refine cleanSearch_ok c hs fuel _ r (by omega) hr (by omega) (by omega) ?_ hhi
        intro j e hj hjl
        exact lt_of_le_of_lt (sorted_getElem?_le hs hj hget (by omega)) hc
      · simp only [hc, if_false]
        refine cleanSearch_ok c hs fuel l _ hl (by omega) (by omega) (by omega) hlo ?_
        intro j e hj hjl
        exact fun h => hc (lt_of_le_of_lt (sorted_getElem?_le hs hget hj (by omega)) h)
    · simp only [hle, if_false]
      refine ⟨r, rfl, by omega, hr, ?_⟩
      intro j e hj
      constructor
      · intro h
        by_contra hcon
        exact hhi j e hj (by omega) h
      · intro h
        exact hlo j e hj (by omega)


/-- Statement C3.  On a free list sorted by `lastUseTime`, the binary search of
`clean` finishes within the iterations granted, never indexes outside the
list, and returns the rightmost index whose `lastUseTime` is strictly before
the cutoff `now - getMaxIdleWorkerDuration()` (`-1` when there is none);
`clean` then notifies exactly the entries before the cutoff, keeps exactly the
others in their order, and the two parts make up the original list. -/
theorem clean_evicts_exactly_the_expired (p : Pool) (now : Time)
    (hs : SortedByLastUse p.evils) :
    ∃ (i : Int) (p' : Pool) (evicted : List Evil),
      Pool.cleanSearch p.evils (now - p.getMaxIdleWorkerDuration) (p.evils.length + 1) 0
        ((p.evils.length : Int) - 1) = .ok i ∧
      -1 ≤ i ∧ i < p.evils.length ∧
      (∀ (j : Nat) (e : Evil), p.evils[j]? = some e →
        (e.lastUseTime < now - p.getMaxIdleWorkerDuration ↔ (j : Int) ≤ i)) ∧
      p.clean now = .ok (p', evicted) ∧
      evicted = p.evils.filter
        (fun e => decide (e.lastUseTime < now - p.getMaxIdleWorkerDuration)) ∧
      p'.evils = p.evils.filter
        (fun e => !decide (e.lastUseTime < now - p.getMaxIdleWorkerDuration)) ∧
      evicted ++ p'.evils = p.evils := by
  obtain ⟨i, hi, hlo, hhi, hchar⟩ :=
    cleanSearch_ok (now - p.getMaxIdleWorkerDuration) hs (p.evils.length + 1) 0
      ((p.evils.length : Int) - 1) (le_refl _) (by omega) (by omega) (by omega)
      (fun j e _ hj => by omega)
      (fun j e hj hlt => by
        have := (List.getElem?_eq_some.mp hj).1
        omega)
  have hk : (i + 1).toNat ≤ p.evils.length := by omega
  have hpre := filter_eq_take_of_split
    (fun e => decide (e.lastUseTime < now - p.getMaxIdleWorkerDuration)) p.evils
    (i + 1).toNat hk (fun j e hj => by
      have := hchar j e hj
      simp only [decide_eq_true_eq]
      rw [this]
      omega)
  simp only at hpre
  by_cases hneg : i = -1
  · subst hneg
    refine ⟨-1, { p with locked := false }, [], hi, hlo, hhi, hchar, ?_, ?_, ?_, ?_⟩
    · simp only [Pool.clean, hi]
      rfl
    · rw [hpre.1]; simp
    · rw [hpre.2]; simp
    · simp
  · refine ⟨i, { p with evils := p.evils.drop (i + 1).toNat, locked := false },
      p.evils.take (i + 1).toNat, hi, hlo, hhi, hchar, ?_, hpre.1.symm, hpre.2.symm, ?_⟩
    · have hrange : ¬ (i + 1 < 0 ∨ (p.evils.length : Int) < i + 1) := by omega
      simp only [Pool.clean, hi, hneg, if_false, hrange]
      rw [copySlice_drop_take]
    · simp


/-- Statement C3 on `idlePool` at time 12: the cutoff is 7, the workers last
used at 1 and 4 are evicted. -/
theorem clean_evicts_exactly_the_expired_witness :
    SortedByLastUse idlePool.evils ∧
    ∃ (i : Int) (p' : Pool) (evicted : List Evil),
      Pool.cleanSearch idlePool.evils (12 - idlePool.getMaxIdleWorkerDuration)
        (idlePool.evils.length + 1) 0 ((idlePool.evils.length : Int) - 1) = .ok i ∧
      -1 ≤ i ∧ i < idlePool.evils.length ∧
      (∀ (j : Nat) (e : Evil), idlePool.evils[j]? = some e →
        (e.lastUseTime < 12 - idlePool.getMaxIdleWorkerDuration ↔ (j : Int) ≤ i)) ∧
      idlePool.clean 12 = .ok (p', evicted) ∧
      evicted = idlePool.evils.filter
        (fun e => decide (e.lastUseTime < 12 - idlePool.getMaxIdleWorkerDuration)) ∧
      p'.evils = idlePool.evils.filter
        (fun e => !decide (e.lastUseTime < 12 - idlePool.getMaxIdleWorkerDuration)) ∧
      evicted ++ p'.evils = idlePool.evils :=
  ⟨by decide, clean_evicts_exactly_the_expired idlePool 12 (by decide)⟩

/-! ## `get` -/

/-- Statement C5.  `get` falls in exactly one of three cases.  On a non-empty
free list it returns the head, the free list becomes its tail and `evCount`
stays.  On an empty free list with `evCount < EvilMaxCount` it returns a worker
built at addresses that were free until then (so no worker of the free list),
`evCount` grows by one and the free list stays empty.  Otherwise it returns
`nil` and leaves the free list and `evCount` as they were. -/
theorem get_head_or_create_or_nil (p : Pool) (heap : Nat) :
    (∃ ev rest, p.evils = ev :: rest ∧
        (p.get heap).1 = some ev ∧ (p.get heap).2.1.evils = rest ∧
        (p.get heap).2.1.evCount = p.evCount ∧ (p.get heap).2.2 = heap) ∨
    (p.evils = [] ∧ p.evCount < p.EvilMaxCount ∧
        ∃ ev, (p.get heap).1 = some ev ∧ ev.addr = heap + 1 ∧ ev.ch = heap ∧
          ev ∉ p.evils ∧ (p.get heap).2.2 = heap + 2 ∧
          (p.get heap).2.1.evCount = p.evCount + 1 ∧ (p.get heap).2.1.evils = []) ∨
    (p.evils = [] ∧ ¬ p.evCount < p.EvilMaxCount ∧
        (p.get heap).1 = none ∧ (p.get heap).2.1.evils = p.evils ∧
        (p.get heap).2.1.evCount = p.evCount ∧ (p.get heap).2.2 = heap) := by
  unfold Pool.get
  cases hev : p.evils with
  | nil =>
    by_cases hc : p.evCount < p.EvilMaxCount
    · right; left
      simp [hc]
    · right; right
      simp [hc, hev]
  | cons ev rest =>
    left
    exact ⟨ev, rest, rfl, rfl, rfl, rfl, rfl⟩

/-! ## The singleton -/

/-- Statement C9.  Constructing the pool with `o1` and then with `o2` returns
the same pointer both times, to the one `Pool` object ever allocated, whose
`EvilMaxCount` and `EvilMaxIdleDuration` are those of `o1`; whatever the state
`use` has brought the pool to in between, the second call leaves the object
(configuration, free list and worker count) as it finds it.  The same holds
for two calls of `New`. -/
theorem newPool_twice_keeps_first_options (o1 o2 : Options) (use : Pool → Pool)
    (f1 f2 : List (Options → Options)) (wg1 wg2 : Nat) :
    (newPool (newPool Globals.init o1).1 o2).2 = (newPool Globals.init o1).2 ∧
    (newPool Globals.init o1).2 = some 0 ∧
    (newPool (newPool Globals.init o1).1 o2).1.pools = [Pool.ofOptions o1] ∧
    (Pool.ofOptions o1).EvilMaxCount = o1.EvilMaxCount ∧
    (Pool.ofOptions o1).EvilMaxIdleDuration = o1.EvilMaxIdleDuration ∧
    (newPool { (newPool Globals.init o1).1 with
        pools := (newPool Globals.init o1).1.pools.map use } o2).2 = (newPool Globals.init o1).2 ∧
    (newPool { (newPool Globals.init o1).1 with
        pools := (newPool Globals.init o1).1.pools.map use } o2).1.pools = [use (Pool.ofOptions o1)] ∧
    (New (New Globals.init f1 wg1).1 f2 wg2).2.pool = (New Globals.init f1 wg1).2.pool ∧
    (New (New Globals.init f1 wg1).1 f2 wg2).1.pools = (New Globals.init f1 wg1).1.pools := by
  simp [newPool, New, Globals.init, Pool.ofOptions]

/-! ## The worker loop -/

/-- Statement C4, as the code has it.  A worker that receives the `nil` job
that `clean` sends at line 232 does not leave its loop: line 95 panics with
`BUG: no job!`, and lines 108-110, which would lower `evCount`, are not
reached.  So every one of the workers evicted by a sweep ends in that panic;
the sweep of `idlePool` at time 12 evicts two workers, `evCount` stays at 4 and
both workers panic. -/
theorem run_panics_on_nil_job {τ : Type} (p : Pool) (m : Mem τ) (ev : Evil) (now : Time)
    (evicted : List Evil) :
    p.runIteration m ev none now = Outcome.fault (Fault.panic "BUG: no job!") ∧
    notifyEvicted p m evicted now =
      List.replicate evicted.length (Outcome.fault (Fault.panic "BUG: no job!")) ∧
    ∃ (p' : Pool) (gone : List Evil),
      idlePool.clean 12 = .ok (p', gone) ∧ gone.length = 2 ∧ p'.evCount = 4 ∧
      idlePool.evCount = 4 ∧
      notifyEvicted p' m gone 12 =
        [Outcome.fault (Fault.panic "BUG: no job!"), Outcome.fault (Fault.panic "BUG: no job!")] := by
  refine ⟨rfl, ?_, ⟨_, _, rfl, rfl, rfl, rfl, rfl⟩⟩
  induction evicted with
  | nil => rfl
  | cons e rest ih =>
    simp only [notifyEvicted, List.map_cons, List.length_cons, List.replicate_succ] at ih ⊢
    rw [ih]
    rfl

/-- Statement C6, as the code has it.  When `job.wg.Done()` of line 99 has
been executed, so that the barrier of a job submitted alone is at zero and
`Success` returns, the flag `finished` of the job is still `false`: it is
set by the next statement, line 101. -/
theorem finished_unset_when_barrier_signalled {τ : Type} (task : τ) (wg : Nat) (ran : List τ) :
    jobStmts = [Stmt.callTask, Stmt.wgDone, Stmt.setFinished] ∧
    ∃ m : Mem τ,
      execStmts 0 [Stmt.callTask, Stmt.wgDone] { jobs := [newJob task wg], counter := 1, ran := ran }
        = .ok m ∧
      m.counter = 0 ∧
      (m.jobs[0]?).map (fun j => j.finished) = some false ∧
      Job.Success m 0 = some (false, m) := by
  refine ⟨rfl, ⟨_, rfl, rfl, rfl, rfl⟩⟩


/-! ## Jobs of one `Slave` -/

/-- What the statements of lines 98-101 do to the memory when they all
succeed. -/
theorem execStmts_jobStmts_ok {τ : Type} {a : Nat} {m m' : Mem τ}
    (h : execStmts a jobStmts m = .ok m') :
    ∃ j, m.jobs[a]? = some j ∧ 1 ≤ m.counter ∧
      m' = { jobs := m.jobs.set a { j with finished := true }
             counter := m.counter - 1
             ran := m.ran ++ [j.task] } := by
  cases hj : m.jobs[a]? with
  | none => simp [execStmts, jobStmts, Stmt.exec, hj] at h
  | some j =>
    by_cases hc : m.counter - 1 < 0
    · simp [execStmts, jobStmts, Stmt.exec, hj, hc] at h
    · simp [execStmts, jobStmts, Stmt.exec, hj, hc] at h
      exact ⟨j, rfl, by omega, h.symm⟩

/-- The statements of lines 98-101 succeed on a job of the heap whose barrier
is not at zero. -/
theorem execStmts_jobStmts_isOk {τ : Type} {a : Nat} {m : Mem τ} {j : Job τ}
    (hj : m.jobs[a]? = some j) (hc : 1 ≤ m.counter) :
    execStmts a jobStmts m = .ok
      { jobs := m.jobs.set a { j with finished := true }
        counter := m.counter - 1
        ran := m.ran ++ [j.task] } := by
  have hc' : ¬ m.counter - 1 < 0 := by omega
  simp [execStmts, jobStmts, Stmt.exec, hj, hc']

theorem map_task_set_finished {τ : Type} (jobs : List (Job τ)) (a : Nat) (j : Job τ)
    (hj : jobs[a]? = some j) :
    (jobs.set a { j with finished := true }).map (fun x => x.task) = jobs.map (fun x => x.task) := by
  apply List.ext_getElem?
  intro i
  by_cases hia : a = i
  · subst hia
    have hlt : a < jobs.length := (List.getElem?_eq_some.mp hj).1
    obtain ⟨_, hget⟩ := List.getElem?_eq_some.mp hj
    simp [List.getElem?_map, List.getElem?_set, hlt, hj, hget]
  · simp [List.getElem?_map, List.getElem?_set, hia]

theorem SlaveWorld.inv_fresh {τ : Type} (s : Slave) (hs : s.Jobs = []) :
    (SlaveWorld.fresh s : SlaveWorld τ).Inv := by
  simp [SlaveWorld.Inv, SlaveWorld.fresh, acquiredCounter, hs]

theorem SlaveWorld.inv_add {τ : Type} {w : SlaveWorld τ} (hw : w.Inv) (t : τ) :
    (Slave.Add w t).2.Inv := by
  obtain ⟨h1, h2, h3, h4⟩ := hw
  refine ⟨?_, ?_, ?_, ?_⟩
  · simp [Slave.Add, h1, List.range_succ]
  · simp [Slave.Add, h2]
  · intro a ha
    simp only [Slave.Add, List.mem_append, List.mem_singleton] at ha
    simp only [Slave.Add, List.length_append, List.length_singleton]
    rcases ha with ha | ha
    · have := h3 a ha
      omega
    · omega
  · intro j hj
    simp only [Slave.Add, List.mem_append, List.mem_singleton] at hj
    rcases hj with hj | hj
    · exact h4 j hj
    · subst hj
      rfl

theorem SlaveWorld.inv_exec {τ : Type} {w w1 : SlaveWorld τ} {a : Nat} (hw : w.Inv)
    (h : w.exec a = some w1) :
    w1.Inv ∧ w1.s = w.s ∧ w1.mem.jobs.length = w.mem.jobs.length ∧
      w1.mem.jobs.map (fun x => x.task) = w.mem.jobs.map (fun x => x.task) := by
  obtain ⟨h1, h2, h3, h4⟩ := hw
  unfold SlaveWorld.exec at h
  by_cases ha : a ∈ w.queue
  · simp only [ha, if_true] at h
    cases hex : execStmts a jobStmts w.mem with
    | error f => simp [hex] at h
    | ok m =>
      simp only [hex, Option.some.injEq] at h
      subst h
      obtain ⟨j, hj, hc, rfl⟩ := execStmts_jobStmts_ok hex
      refine ⟨⟨?_, ?_, ?_, ?_⟩, rfl, by simp, map_task_set_finished _ _ _ hj⟩
      · simpa using h1
      · have hlen := List.length_erase_of_mem ha
        have hpos : 0 < w.queue.length := List.length_pos_of_mem ha
        simp only [hlen, h2]
        omega
      · intro b hb
        have := h3 b (List.mem_of_mem_erase hb)
        simpa using this
      · intro x hx
        rcases List.mem_or_eq_of_mem_set hx with hx | hx
        · exact h4 x hx
        · subst hx
          obtain ⟨hlt, hget⟩ := List.getElem?_eq_some.mp hj
          exact h4 j (hget ▸ List.getElem_mem hlt)
  · simp [ha] at h

theorem SlaveWorld.run_spec {τ : Type} :
    ∀ (evs : List (Event τ)) (w w' : SlaveWorld τ) (hs : List Nat),
      w.Inv → SlaveWorld.run w evs = some (hs, w') →
      w'.Inv ∧
      w'.mem.jobs.map (fun x => x.task) = w.mem.jobs.map (fun x => x.task) ++ submitted evs ∧
      hs = List.range' w.mem.jobs.length (submitted evs).length
  | [], w, w', hs, hw, h => by
    simp only [SlaveWorld.run, Option.some.injEq, Prod.mk.injEq] at h
    obtain ⟨rfl, rfl⟩ := h
    simp [submitted, hw]
  | .add t :: evs, w, w', hs, hw, h => by
    simp only [SlaveWorld.run] at h
    cases hr : SlaveWorld.run (Slave.Add w t).2 evs with
    | none => simp [hr] at h
    | some r =>
      obtain ⟨hs1, w1⟩ := r
      simp only [hr, Option.some.injEq, Prod.mk.injEq] at h
      obtain ⟨rfl, rfl⟩ := h
      obtain ⟨i1, i2, i3⟩ := SlaveWorld.run_spec evs _ _ _ (SlaveWorld.inv_add hw t) hr
      refine ⟨i1, ?_, ?_⟩
      · rw [i2]
        simp [Slave.Add, submitted, newJob]
      · rw [i3]
        simp [Slave.Add, submitted, List.range']
  | .exec a :: evs, w, w', hs, hw, h => by
    simp only [SlaveWorld.run] at h
    cases hx : w.exec a with
    | none => simp [hx] at h
    | some w1 =>
      simp only [hx] at h
      obtain ⟨j1, _, j3, j4⟩ := SlaveWorld.inv_exec hw hx
      obtain ⟨i1, i2, i3⟩ := SlaveWorld.run_spec evs _ _ _ j1 h
      refine ⟨i1, ?_, ?_⟩
      · rw [i2, j4]
        simp [submitted]
      · rw [i3, j3]
        simp [submitted]

theorem SlaveWorld.counter_zero_iff {τ : Type} {w : SlaveWorld τ} (hw : w.Inv) :
    w.mem.counter = 0 ↔ w.queue = [] := by
  rw [hw.2.1]
  constructor
  · intro h
    exact List.length_eq_zero.mp (by exact_mod_cast h)
  · intro h
    simp [h]


theorem map_success_set_finished {τ : Type} (jobs : List (Job τ)) (a : Nat) (j : Job τ)
    (hj : jobs[a]? = some j) :
    (jobs.set a { j with finished := true }).map (fun x => x.success) =
      jobs.map (fun x => x.success) := by
  apply List.ext_getElem?
  intro i
  by_cases hia : a = i
  · subst hia
    have hlt : a < jobs.length := (List.getElem?_eq_some.mp hj).1
    obtain ⟨_, hget⟩ := List.getElem?_eq_some.mp hj
    simp [List.getElem?_map, List.getElem?_set, hlt, hj, hget]
  · simp [List.getElem?_map, List.getElem?_set, hia]

theorem Stmt.exec_success {τ : Type} (b : Nat) (st : Stmt) (m m' : Mem τ)
    (h : st.exec b m = .ok m') :
    m'.jobs.map (fun x => x.success) = m.jobs.map (fun x => x.success) := by
  cases st with
  | callTask =>
    cases hj : m.jobs[b]? with
    | none => simp [Stmt.exec, hj] at h
    | some j =>
      simp only [Stmt.exec, hj, Except.ok.injEq] at h
      subst h
      rfl
  | wgDone =>
    by_cases hc : m.counter - 1 < 0
    · simp [Stmt.exec, hc] at h
    · simp only [Stmt.exec, hc, if_false, Except.ok.injEq] at h
      subst h
      rfl
  | setFinished =>
    cases hj : m.jobs[b]? with
    | none => simp [Stmt.exec, hj] at h
    | some j =>
      simp only [Stmt.exec, hj, Except.ok.injEq] at h
      subst h
      exact map_success_set_finished _ _ _ hj

/-- The workers can always execute the jobs still queued, after which the
queue is empty. -/
theorem SlaveWorld.run_queue {τ : Type} :
    ∀ (q : List Nat) (w : SlaveWorld τ), w.Inv → w.queue = q →
      ∃ w', SlaveWorld.run w (q.map Event.exec) = some ([], w') ∧ w'.queue = [] ∧
        w'.s = w.s ∧ w'.Inv ∧
        w'.mem.jobs.map (fun x => x.task) = w.mem.jobs.map (fun x => x.task)
  | [], w, hw, hq => ⟨w, rfl, hq, rfl, hw, rfl⟩
  | a :: q, w, hw, hq => by
    have ha : a ∈ w.queue := by simp [hq]
    have hlt : a < w.mem.jobs.length := hw.2.2.1 a ha
    have hc : 1 ≤ w.mem.counter := by
      rw [hw.2.1, hq]
      simp
    have hex := execStmts_jobStmts_isOk (List.getElem?_eq_getElem hlt) hc
    have hx : w.exec a = some
        { w with
          mem := { jobs := w.mem.jobs.set a { w.mem.jobs[a] with finished := true }
                   counter := w.mem.counter - 1
                   ran := w.mem.ran ++ [w.mem.jobs[a].task] }
          queue := w.queue.erase a } := by
      simp only [SlaveWorld.exec, ha, if_true, hex]
    obtain ⟨j1, j2, _, j4⟩ := SlaveWorld.inv_exec hw hx
    obtain ⟨w', r1, r2, r3, r4, r5⟩ := SlaveWorld.run_queue q _ j1 (by simp [hq])
    refine ⟨w', ?_, r2, r3.trans j2, r4, r5.trans j4⟩
    simp only [List.map_cons, SlaveWorld.run, hx]
    exact r1

/-- Statement C7.  Take a freshly created `Slave` and any sequence of calls of
`Add` interleaved with workers executing queued jobs; `hs` are the addresses
the calls of `Add` returned, in order.  There are as many as tasks submitted;
the i-th carries the i-th task; `Join` blocks while a job is queued and
returns exactly `hs` otherwise; and the workers can always execute what is
queued, after which `Join` returns `hs`, each job still with its task. -/
theorem join_returns_jobs_in_submission_order {τ : Type} (g : Globals)
    (optFunc : List (Options → Options)) (wg : Nat) (evs : List (Event τ))
    (hs : List Nat) (w : SlaveWorld τ)
    (hrun : SlaveWorld.run (SlaveWorld.fresh (New g optFunc wg).2) evs = some (hs, w)) :
    hs.length = (submitted evs).length ∧
    (∀ i : Nat, (hs[i]?).bind (fun a => (w.mem.jobs[a]?).map (fun j => j.task))
      = (submitted evs)[i]?) ∧
    Slave.Join w = (if w.queue = [] then some hs else none) ∧
    ∃ w', SlaveWorld.run w (w.queue.map Event.exec) = some ([], w') ∧
      Slave.Join w' = some hs ∧
      ∀ i : Nat, (hs[i]?).bind (fun a => (w'.mem.jobs[a]?).map (fun j => j.task))
        = (submitted evs)[i]? := by
  have h0 : (SlaveWorld.fresh (New g optFunc wg).2 : SlaveWorld τ).Inv :=
    SlaveWorld.inv_fresh _ rfl
  obtain ⟨i1, i2, i3⟩ := SlaveWorld.run_spec evs _ _ _ h0 hrun
  simp only [SlaveWorld.fresh, List.map_nil, List.nil_append, List.length_nil] at i2 i3
  have hlen : w.mem.jobs.length = (submitted evs).length := by
    rw [← i2]; simp
  have hjobs : w.s.Jobs = hs := by
    rw [i1.1, i3, hlen, List.range_eq_range']
  have htask : ∀ (jobs : List (Job τ)), jobs.map (fun x => x.task) = submitted evs →
      ∀ i : Nat, (hs[i]?).bind (fun a => (jobs[a]?).map (fun j => j.task))
        = (submitted evs)[i]? := by
    intro jobs hj i
    rw [i3, ← hj]
    by_cases hi : i < jobs.length
    · have : (List.range' 0 (List.map (fun x => x.task) jobs).length)[i]? = some i := by
        rw [List.getElem?_range' _ _ (by simpa using hi)]
        simp
      rw [this]
      simp
    · have : (List.range' 0 (List.map (fun x => x.task) jobs).length)[i]? = none := by
        rw [List.getElem?_eq_none_iff]
        simpa using hi
      rw [this]
      have hnone : jobs[i]? = none := List.getElem?_eq_none_iff.mpr (by omega)
      simp [hnone]
  obtain ⟨w', r1, r2, r3, r4, r5⟩ := SlaveWorld.run_queue w.queue w i1 rfl
  refine ⟨by rw [i3]; simp, htask _ i2, ?_, w', r1, ?_, htask _ (r5.trans i2)⟩
  · unfold Slave.Join
    by_cases hq : w.queue = []
    · simp [hq, (SlaveWorld.counter_zero_iff i1).mpr hq, hjobs]
    · have : ¬ w.mem.counter = 0 := fun h => hq ((SlaveWorld.counter_zero_iff i1).mp h)
      simp [hq, this]
  · unfold Slave.Join
    simp [(SlaveWorld.counter_zero_iff r4).mpr r2, r3, hjobs]

/-- Statement C7 on `sampleEvents`. -/
theorem join_returns_jobs_in_submission_order_witness :
    ∃ (hs : List Nat) (w : SlaveWorld Nat),
      SlaveWorld.run (SlaveWorld.fresh (New Globals.init [] 7).2) sampleEvents = some (hs, w) ∧
      hs.length = (submitted sampleEvents).length ∧
      (∀ i : Nat, (hs[i]?).bind (fun a => (w.mem.jobs[a]?).map (fun j => j.task))
        = (submitted sampleEvents)[i]?) ∧
      Slave.Join w = (if w.queue = [] then some hs else none) ∧
      ∃ w', SlaveWorld.run w (w.queue.map Event.exec) = some ([], w') ∧
        Slave.Join w' = some hs ∧
        ∀ i : Nat, (hs[i]?).bind (fun a => (w'.mem.jobs[a]?).map (fun j => j.task))
          = (submitted sampleEvents)[i]? :=
  ⟨_, _, rfl, join_returns_jobs_in_submission_order Globals.init [] 7 sampleEvents _ _ rfl⟩

/-- Statement C10.  In every world reached from a freshly created `Slave` by
calls of `Add` and workers executing jobs, every job has `success = false`: no
statement of the worker loop writes the flag.  `Success` blocks while a job is
queued and otherwise returns `false`, leaving the memory as it is, so that a
further call returns the same. -/
theorem success_is_never_written {τ : Type} (g : Globals)
    (optFunc : List (Options → Options)) (wg : Nat) (evs : List (Event τ))
    (hs : List Nat) (w : SlaveWorld τ) (a : Nat) (j : Job τ)
    (hrun : SlaveWorld.run (SlaveWorld.fresh (New g optFunc wg).2) evs = some (hs, w))
    (hj : w.mem.jobs[a]? = some j) :
    j.success = false ∧
    (∀ (b : Nat) (st : Stmt) (m m' : Mem τ), st.exec b m = .ok m' →
      m'.jobs.map (fun x => x.success) = m.jobs.map (fun x => x.success)) ∧
    Job.Success w.mem a = (if w.queue = [] then some (false, w.mem) else none) ∧
    (Job.Success w.mem a).bind (fun r => Job.Success r.2 a) = Job.Success w.mem a := by
  have h0 : (SlaveWorld.fresh (New g optFunc wg).2 : SlaveWorld τ).Inv :=
    SlaveWorld.inv_fresh _ rfl
  obtain ⟨i1, _, _⟩ := SlaveWorld.run_spec evs _ _ _ h0 hrun
  obtain ⟨hlt, hget⟩ := List.getElem?_eq_some.mp hj
  have hsucc : j.success = false := i1.2.2.2 j (hget ▸ List.getElem_mem hlt)
  refine ⟨hsucc, Stmt.exec_success, ?_, ?_⟩
  · unfold Job.Success
    by_cases hq : w.queue = []
    · simp [hq, (SlaveWorld.counter_zero_iff i1).mpr hq, hj, hsucc]
    · have : ¬ w.mem.counter = 0 := fun h => hq ((SlaveWorld.counter_zero_iff i1).mp h)
      simp [hq, this]
  · unfold Job.Success
    by_cases hc : w.mem.counter = 0
    · simp [hc, hj]
    · simp [hc]


/-- Statement C10 on `sampleEvents`, for the first job. -/
theorem success_is_never_written_witness :
    ∃ (hs : List Nat) (w : SlaveWorld Nat) (j : Job Nat),
      SlaveWorld.run (SlaveWorld.fresh (New Globals.init [] 7).2) sampleEvents = some (hs, w) ∧
      w.mem.jobs[0]? = some j ∧
      j.success = false ∧
      (∀ (b : Nat) (st : Stmt) (m m' : Mem Nat), st.exec b m = .ok m' →
        m'.jobs.map (fun x => x.success) = m.jobs.map (fun x => x.success)) ∧
      Job.Success w.mem 0 = (if w.queue = [] then some (false, w.mem) else none) ∧
      (Job.Success w.mem 0).bind (fun r => Job.Success r.2 0) = Job.Success w.mem 0 :=
  ⟨_, _, _, rfl, rfl,
    success_is_never_written Globals.init [] 7 sampleEvents _ _ 0 _ rfl rfl⟩

/-! ## Every job is executed once -/

/-- What a worker executing the job at `a` does to the world. -/
theorem SlaveWorld.exec_shape {τ : Type} {w w1 : SlaveWorld τ} {a : Nat}
    (h : w.exec a = some w1) :
    a ∈ w.queue ∧ ∃ j, w.mem.jobs[a]? = some j ∧
      w1.mem.ran = w.mem.ran ++ [j.task] ∧ w1.queue = w.queue.erase a := by
  unfold SlaveWorld.exec at h
  by_cases ha : a ∈ w.queue
  · simp only [ha, if_true] at h
    cases hex : execStmts a jobStmts w.mem with
    | error f => simp [hex] at h
    | ok m =>
      simp only [hex, Option.some.injEq] at h
      subst h
      obtain ⟨j, hj, _, rfl⟩ := execStmts_jobStmts_ok hex
      exact ⟨ha, j, hj, rfl, rfl⟩
  · simp [ha] at h

/-- The jobs executed and the jobs still queued are, together, the jobs that
were queued at the start and the jobs submitted since. -/
theorem SlaveWorld.run_executed {τ : Type} :
    ∀ (evs : List (Event τ)) (w w' : SlaveWorld τ) (hs : List Nat),
      SlaveWorld.run w evs = some (hs, w') →
      (executed evs ++ w'.queue).Perm (w.queue ++ hs)
  | [], w, w', hs, h => by
    simp only [SlaveWorld.run, Option.some.injEq, Prod.mk.injEq] at h
    obtain ⟨rfl, rfl⟩ := h
    simp [executed]
  | .add t :: evs, w, w', hs, h => by
    simp only [SlaveWorld.run] at h
    cases hr : SlaveWorld.run (Slave.Add w t).2 evs with
    | none => simp [hr] at h
    | some r =>
      obtain ⟨hs1, w1⟩ := r
      simp only [hr, Option.some.injEq, Prod.mk.injEq] at h
      obtain ⟨rfl, rfl⟩ := h
      have ih := SlaveWorld.run_executed evs _ _ _ hr
      simpa [executed, Slave.Add, List.append_assoc] using ih
  | .exec a :: evs, w, w', hs, h => by
    simp only [SlaveWorld.run] at h
    cases hx : w.exec a with
    | none => simp [hx] at h
    | some w1 =>
      simp only [hx] at h
      obtain ⟨ha, _, _, _, hq⟩ := SlaveWorld.exec_shape hx
      have ih := SlaveWorld.run_executed evs _ _ _ h
      rw [hq] at ih
      have h1 : (a :: (executed evs ++ w'.queue)).Perm (a :: (w.queue.erase a ++ hs)) :=
        List.Perm.cons a ih
      have h2 : (a :: (w.queue.erase a ++ hs)).Perm (w.queue ++ hs) := by
        have := (List.perm_cons_erase ha).symm
        exact List.Perm.append_right hs this
      exact h1.trans h2

/-- The log of invocations grows by the tasks of the jobs executed, in the
order of execution. -/
theorem SlaveWorld.run_ran {τ : Type} :
    ∀ (evs : List (Event τ)) (w w' : SlaveWorld τ) (hs : List Nat),
      w.Inv → SlaveWorld.run w evs = some (hs, w') →
      w'.mem.ran = w.mem.ran ++
        (executed evs).filterMap (fun a => (w'.mem.jobs[a]?).map (fun j => j.task))
  | [], w, w', hs, _, h => by
    simp only [SlaveWorld.run, Option.some.injEq, Prod.mk.injEq] at h
    obtain ⟨rfl, rfl⟩ := h
    simp [executed]
  | .add t :: evs, w, w', hs, hw, h => by
    simp only [SlaveWorld.run] at h
    cases hr : SlaveWorld.run (Slave.Add w t).2 evs with
    | none => simp [hr] at h
    | some r =>
      obtain ⟨hs1, w1⟩ := r
      simp only [hr, Option.some.injEq, Prod.mk.injEq] at h
      obtain ⟨rfl, rfl⟩ := h
      have ih := SlaveWorld.run_ran evs _ _ _ (SlaveWorld.inv_add hw t) hr
      simpa [executed, Slave.Add] using ih
  | .exec a :: evs, w, w', hs, hw, h => by
    simp only [SlaveWorld.run] at h
    cases hx : w.exec a with
    | none => simp [hx] at h
    | some w1 =>
      simp only [hx] at h
      obtain ⟨_, j, hj, hran, _⟩ := SlaveWorld.exec_shape hx
      obtain ⟨j1, _, _, j4⟩ := SlaveWorld.inv_exec hw hx
      obtain ⟨_, i2, _⟩ := SlaveWorld.run_spec evs _ _ _ j1 h
      have ih := SlaveWorld.run_ran evs _ _ _ j1 h
      have hlt : a < w.mem.jobs.length := (List.getElem?_eq_some.mp hj).1
      have hlook : (w'.mem.jobs[a]?).map (fun x => x.task) = some j.task := by
        rw [← List.getElem?_map, i2, j4,
          List.getElem?_append_left (by simpa using hlt), List.getElem?_map, hj]
        rfl
      rw [ih, hran]
      simp [executed, hlook]

theorem filterMap_range_lookup {α β : Type} (f : α → β) (l : List α) :
    (List.range l.length).filterMap (fun a => (l[a]?).map f) = l.map f := by
  induction l using List.reverseRecOn with
  | nil => rfl
  | append_singleton l x ih =>
    rw [List.length_append, List.length_singleton, List.range_succ, List.filterMap_append]
    have hcongr : (List.range l.length).filterMap (fun a => ((l ++ [x])[a]?).map f) =
        (List.range l.length).filterMap (fun a => (l[a]?).map f) := by
      apply List.filterMap_congr
      intro a ha
      rw [List.getElem?_append_left (List.mem_range.mp ha)]
    rw [hcongr, ih]
    simp

theorem accumulate_eq_sum {τ : Type} (val : τ → Int) (ran : List τ) :
    accumulate val ran = (ran.map val).sum := by
  have h : ∀ (l : List τ) (init : Int),
      l.foldl (fun result t => result + val t) init = init + (l.map val).sum := by
    intro l
    induction l with
    | nil => intro init; simp
    | cons x xs ih =>
      intro init
      simp only [List.foldl_cons, List.map_cons, List.sum_cons, ih]
      ring
  simpa [accumulate] using h ran 0

/-- Statement C8.  Take a freshly created `Slave` and any schedule of calls of
`Add` and of workers executing queued jobs, and let `Join` return.  Then it
returns the handles of the jobs submitted; the jobs executed are these
handles, each exactly once; the tasks invoked are, in the order of execution,
the tasks of the jobs executed, hence the tasks submitted, each exactly once;
no job is left queued and the barrier is at zero.  In particular, when the
tasks add the integers 0 to 10 to a variable starting at 0, each addition in
one step, the variable ends at 55 whatever the schedule. -/
theorem every_task_runs_exactly_once {τ : Type} (g : Globals)
    (optFunc : List (Options → Options)) (wg : Nat) (evs : List (Event τ))
    (hs js : List Nat) (w : SlaveWorld τ)
    (hrun : SlaveWorld.run (SlaveWorld.fresh (New g optFunc wg).2) evs = some (hs, w))
    (hjoin : Slave.Join w = some js) :
    js = hs ∧ hs.Nodup ∧ (executed evs).Perm hs ∧
    (executed evs).length = (submitted evs).length ∧
    w.mem.ran = (executed evs).filterMap (fun a => (w.mem.jobs[a]?).map (fun j => j.task)) ∧
    w.mem.ran.Perm (submitted evs) ∧
    w.queue = [] ∧ w.mem.counter = 0 ∧
    ∀ val : τ → Int, ((submitted evs).map val).Perm [0, 1, 2, 3, 4, 5, 6, 7, 8, 9, 10] →
      accumulate val w.mem.ran = 55 := by
  have h0 : (SlaveWorld.fresh (New g optFunc wg).2 : SlaveWorld τ).Inv :=
    SlaveWorld.inv_fresh _ rfl
  obtain ⟨i1, i2, i3⟩ := SlaveWorld.run_spec evs _ _ _ h0 hrun
  simp only [SlaveWorld.fresh, List.map_nil, List.nil_append, List.length_nil] at i2 i3
  have hlen : w.mem.jobs.length = (submitted evs).length := by
    rw [← i2]; simp
  have hhs : hs = List.range w.mem.jobs.length := by
    rw [i3, hlen, List.range_eq_range']
  have hc : w.mem.counter = 0 := by
    unfold Slave.Join at hjoin
    by_contra hne
    simp [hne] at hjoin
  have hq : w.queue = [] := (SlaveWorld.counter_zero_iff i1).mp hc
  have hjs : js = hs := by
    unfold Slave.Join at hjoin
    simp only [hc, if_true, Option.some.injEq] at hjoin
    rw [← hjoin, i1.1, hhs]
  have hex : (executed evs).Perm hs := by
    have := SlaveWorld.run_executed evs _ _ _ hrun
    simpa [SlaveWorld.fresh, hq] using this
  have hran : w.mem.ran =
      (executed evs).filterMap (fun a => (w.mem.jobs[a]?).map (fun j => j.task)) := by
    have := SlaveWorld.run_ran evs _ _ _ h0 hrun
    simpa [SlaveWorld.fresh] using this
  have hperm : w.mem.ran.Perm (submitted evs) := by
    rw [hran, ← i2, ← filterMap_range_lookup (fun j => j.task) w.mem.jobs, ← hhs]
    exact List.Perm.filterMap _ hex
  refine ⟨hjs, ?_, hex, ?_, hran, hperm, hq, hc, ?_⟩
  · rw [hhs]
    exact List.nodup_range _
  · rw [hex.length_eq, hhs, List.length_range, hlen]
  · intro val hval
    rw [accumulate_eq_sum, (List.Perm.map val hperm).sum_eq, hval.sum_eq]
    rfl

/-- Statement C8 on `sumEvents`: the eleven tasks of the test, executed out of
order. -/
theorem every_task_runs_exactly_once_witness :
    ∃ (hs js : List Nat) (w : SlaveWorld Int),
      SlaveWorld.run (SlaveWorld.fresh (New Globals.init [] 7).2) sumEvents = some (hs, w) ∧
      Slave.Join w = some js ∧
      js = hs ∧ hs.Nodup ∧ (executed sumEvents).Perm hs ∧
      (executed sumEvents).length = (submitted sumEvents).length ∧
      w.mem.ran = (executed sumEvents).filterMap
        (fun a => (w.mem.jobs[a]?).map (fun j => j.task)) ∧
      w.mem.ran.Perm (submitted sumEvents) ∧
      w.queue = [] ∧ w.mem.counter = 0 ∧
      ∀ val : Int → Int,
        ((submitted sumEvents).map val).Perm [0, 1, 2, 3, 4, 5, 6, 7, 8, 9, 10] →
        accumulate val w.mem.ran = 55 :=
  ⟨_, _, _, rfl, rfl,
    every_task_runs_exactly_once Globals.init [] 7 sumEvents _ _ _ rfl rfl⟩

/-! ## The transition system -/

/-- What `clean` leaves of the pool: a suffix of the free list, the other
fields but the lock as they were. -/
theorem Pool.clean_ok {p p' : Pool} {now : Time} {evicted : List Evil}
    (h : p.clean now = .ok (p', evicted)) :
    (∃ k, p'.evils = p.evils.drop k) ∧ p'.evCount = p.evCount ∧
      p'.EvilMaxCount = p.EvilMaxCount := by
  unfold Pool.clean at h
  simp only at h
  cases hs : Pool.cleanSearch p.evils (now - p.getMaxIdleWorkerDuration) (p.evils.length + 1) 0
      ((p.evils.length : Int) - 1) with
  | error f => simp [hs] at h
  | ok i =>
    simp only [hs] at h
    by_cases hi : i = -1
    · simp only [hi, if_true, Except.ok.injEq, Prod.mk.injEq] at h
      obtain ⟨rfl, _⟩ := h
      exact ⟨⟨0, rfl⟩, rfl, rfl⟩
    · simp only [hi, if_false] at h
      by_cases hr : i + 1 < 0 ∨ (p.evils.length : Int) < i + 1
      · simp [hr] at h
      · simp only [hr, if_false, Except.ok.injEq, Prod.mk.injEq] at h
        obtain ⟨rfl, _⟩ := h
        exact ⟨⟨(i + 1).toNat, copySlice_drop_take _ _⟩, rfl, rfl⟩

theorem World.countInv_step {w w' : World} {act : Action} (hw : w.CountInv)
    (h : w.step act = some w') :
    w'.CountInv ∧ w'.pool.EvilMaxCount = w.pool.EvilMaxCount := by
  obtain ⟨h1, h2, h3, h4⟩ := hw
  cases act with
  | tick d =>
    simp only [World.step, Option.some.injEq] at h
    subst h
    exact ⟨⟨h1, h2, h3, h4⟩, rfl⟩
  | get =>
    unfold World.step Pool.get at h
    cases hev : w.pool.evils with
    | nil =>
      by_cases hc : w.pool.evCount < w.pool.EvilMaxCount
      · simp only [hev, hc, if_true, Option.some.injEq] at h
        subst h
        refine ⟨⟨?_, ?_, ?_, ?_⟩, rfl⟩
        · simp [h1]
        · simp only; omega
        · simp only [Nat.add_eq_left, OfNat.ofNat_ne_zero, if_false]
          refine List.Nodup.append h3 (List.nodup_singleton _) ?_
          intro a ha hb
          simp only [List.mem_singleton] at hb
          have := h4 a ha
          omega
        · intro a ha
          simp only [Nat.add_eq_left, OfNat.ofNat_ne_zero, if_false, List.mem_append,
            List.mem_singleton] at ha
          rcases ha with ha | ha
          · have := h4 a ha
            simp only; omega
          · simp only; omega
      · simp only [hev, hc, if_false, Option.some.injEq] at h
        subst h
        exact ⟨⟨h1, h2, h3, h4⟩, rfl⟩
    | cons ev rest =>
      simp only [hev, if_true, Option.some.injEq] at h
      subst h
      exact ⟨⟨h1, h2, h3, h4⟩, rfl⟩
  | stamp a =>
    unfold World.step at h
    cases hf : w.working.find? (fun ev => ev.addr = a) with
    | none => simp [hf] at h
    | some ev =>
      by_cases ha : a ∈ w.live
      · simp only [hf, ha, if_true, Option.some.injEq] at h
        subst h
        exact ⟨⟨h1, h2, h3, h4⟩, rfl⟩
      · simp [hf, ha] at h
  | enqueue a =>
    unfold World.step at h
    cases hf : w.stamped.find? (fun ev => ev.addr = a) with
    | none => simp [hf] at h
    | some ev =>
      by_cases ha : a ∈ w.live
      · simp only [hf, ha, if_true, Option.some.injEq] at h
        subst h
        have hr : (w.pool.releaseLocked ev).2.evCount = w.pool.evCount ∧
            (w.pool.releaseLocked ev).2.EvilMaxCount = w.pool.EvilMaxCount := by
          unfold Pool.releaseLocked
          split <;> exact ⟨rfl, rfl⟩
        exact ⟨⟨by simp only [hr.1]; exact h1, by simp only [hr.1, hr.2]; exact h2, h3, h4⟩, hr.2⟩
      · simp [hf, ha] at h
  | clean lag =>
    unfold World.step at h
    cases hc : w.pool.clean (w.now - lag) with
    | error f => simp [hc] at h
    | ok r =>
      obtain ⟨p, evicted⟩ := r
      simp only [hc, Option.some.injEq] at h
      subst h
      obtain ⟨_, c2, c3⟩ := Pool.clean_ok hc
      exact ⟨⟨by simp only [c2]; exact h1, by simp only [c2, c3]; exact h2, h3, h4⟩, c3⟩
  | exit a =>
    unfold World.step at h
    by_cases ha : a ∈ w.live
    · simp only [ha, if_true, Option.some.injEq] at h
      subst h
      have hlen := List.length_erase_of_mem ha
      have hpos : 0 < w.live.length := List.length_pos_of_mem ha
      refine ⟨⟨?_, ?_, h3.erase a, ?_⟩, rfl⟩
      · simp only [hlen, h1]; omega
      · simp only; omega
      · intro b hb
        exact h4 b (List.mem_of_mem_erase hb)
    · simp [ha] at h

theorem World.countInv_run :
    ∀ (acts : List Action) (w w' : World), w.CountInv → World.run w acts = some w' →
      w'.CountInv ∧ w'.pool.EvilMaxCount = w.pool.EvilMaxCount
  | [], w, w', hw, h => by
    simp only [World.run, Option.some.injEq] at h
    subst h
    exact ⟨hw, rfl⟩
  | act :: acts, w, w', hw, h => by
    simp only [World.run] at h
    cases hs : w.step act with
    | none => simp [hs] at h
    | some w1 =>
      simp only [hs] at h
      obtain ⟨i1, i2⟩ := World.countInv_step hw hs
      obtain ⟨j1, j2⟩ := World.countInv_run acts w1 w' i1 h
      exact ⟨j1, j2.trans i2⟩

/-- Statement C2.  For a pool built with `EvilMaxCount ≥ 0`, in every state
reached by steps of `get`, `release`, `clean` and workers leaving `run` (a
worker does so only while its `run` is alive, hence after `get` created it and
at most once), `0 ≤ evCount ≤ EvilMaxCount`, the bound being the one
configured. -/
theorem evCount_between_zero_and_max (opt : Options) (start : Time)
    (hmax : 0 ≤ opt.EvilMaxCount) (acts : List Action) (w : World)
    (hrun : World.run (World.init opt start) acts = some w) :
    0 ≤ w.pool.evCount ∧ w.pool.evCount ≤ w.pool.EvilMaxCount ∧
      w.pool.EvilMaxCount = opt.EvilMaxCount := by
  have h0 : (World.init opt start).CountInv := by
    refine ⟨rfl, ?_, List.nodup_nil, ?_⟩
    · simpa [World.init, Pool.ofOptions] using hmax
    · intro a ha
      simp [World.init] at ha
  obtain ⟨⟨h1, h2, _, _⟩, h3⟩ := World.countInv_run acts _ _ h0 hrun
  refine ⟨?_, h2, h3⟩
  rw [h1]
  exact Int.natCast_nonneg _


/-- Statement C2 on `sampleSchedule`, for a pool of at most two workers. -/
theorem evCount_between_zero_and_max_witness :
    (0 : Int) ≤ (Options.mk 2 5).EvilMaxCount ∧
    ∃ w : World, World.run (World.init (Options.mk 2 5) 0) sampleSchedule = some w ∧
      0 ≤ w.pool.evCount ∧ w.pool.evCount ≤ w.pool.EvilMaxCount ∧
      w.pool.EvilMaxCount = (Options.mk 2 5).EvilMaxCount :=
  ⟨by decide, _, rfl,
    evCount_between_zero_and_max (Options.mk 2 5) 0 (by decide) sampleSchedule _ rfl⟩

theorem sorted_drop {evils : List Evil} (h : SortedByLastUse evils) (k : Nat) :
    SortedByLastUse (evils.drop k) :=
  List.Pairwise.sublist (List.drop_sublist k evils) h

theorem sorted_append_now {evils : List Evil} {now : Time} (h : SortedByLastUse evils)
    (hb : ∀ ev ∈ evils, ev.lastUseTime ≤ now) (ev : Evil) :
    SortedByLastUse (evils ++ [ev.stamp now]) := by
  unfold SortedByLastUse at *
  rw [List.pairwise_append]
  refine ⟨h, List.pairwise_singleton _ _, ?_⟩
  intro a ha b hb'
  simp only [List.mem_singleton] at hb'
  subst hb'
  exact hb a ha

theorem World.sortedInv_step_other {w w' : World} {act : Action} (hw : w.SortedInv)
    (hact : (∀ a, act ≠ .stamp a) ∧ (∀ a, act ≠ .enqueue a))
    (h : w.step act = some w') : w'.SortedInv := by
  obtain ⟨h1, h2, h3⟩ := hw
  cases act with
  | tick d =>
    simp only [World.step, Option.some.injEq] at h
    subst h
    refine ⟨h1, ?_, h3⟩
    intro ev hev
    have := h2 ev hev
    have hd : (0 : Int) ≤ (d : Int) := Int.natCast_nonneg d
    show ev.lastUseTime ≤ w.now + (d : Int)
    exact le_trans this (le_add_of_nonneg_right hd)
  | get =>
    unfold World.step Pool.get at h
    cases hev : w.pool.evils with
    | nil =>
      rw [hev] at h1 h2
      by_cases hc : w.pool.evCount < w.pool.EvilMaxCount
      · simp only [hev, hc, if_true, Option.some.injEq] at h
        subst h
        exact ⟨by simpa [hev] using h1, by simp [hev], h3⟩
      · simp only [hev, hc, if_false, Option.some.injEq] at h
        subst h
        exact ⟨by simpa [hev] using h1, by simp [hev], h3⟩
    | cons ev rest =>
      rw [hev] at h1 h2
      simp only [hev, Option.some.injEq] at h
      subst h
      refine ⟨?_, ?_, h3⟩
      · exact (List.pairwise_cons.mp h1).2
      · intro e he
        exact h2 e (List.mem_cons_of_mem _ he)
  | stamp a => exact absurd rfl (hact.1 a)
  | enqueue a => exact absurd rfl (hact.2 a)
  | clean lag =>
    unfold World.step at h
    cases hc : w.pool.clean (w.now - lag) with
    | error f => simp [hc] at h
    | ok r =>
      obtain ⟨p, evicted⟩ := r
      simp only [hc, Option.some.injEq] at h
      subst h
      obtain ⟨⟨k, hk⟩, _, _⟩ := Pool.clean_ok hc
      refine ⟨?_, ?_, h3⟩
      · simp only [hk]
        exact sorted_drop h1 k
      · intro ev hev
        simp only [hk] at hev
        exact h2 ev (List.mem_of_mem_drop hev)
  | exit a =>
    unfold World.step at h
    by_cases ha : a ∈ w.live
    · simp only [ha, if_true, Option.some.injEq] at h
      subst h
      exact ⟨h1, h2, h3⟩
    · simp [ha] at h

theorem World.sortedInv_release {w w1 w2 : World} {a b : Nat} (hw : w.SortedInv)
    (hs : w.step (.stamp a) = some w1) (he : w1.step (.enqueue b) = some w2) :
    w2.SortedInv := by
  obtain ⟨h1, h2, h3⟩ := hw
  unfold World.step at hs
  cases hf : w.working.find? (fun ev => ev.addr = a) with
  | none => simp [hf] at hs
  | some ev =>
    by_cases ha : a ∈ w.live
    · simp only [hf, ha, if_true, Option.some.injEq] at hs
      subst hs
      unfold World.step at he
      simp only [h3, List.nil_append] at he
      cases hf2 : List.find? (fun e => decide (e.addr = b)) [ev.stamp w.now] with
      | none => simp [hf2] at he
      | some ev2 =>
        have hev2 : ev2 = ev.stamp w.now := by
          have := List.mem_of_find?_eq_some hf2
          simpa using this
        subst hev2
        by_cases hb : b ∈ w.live
        · simp only [hf2, hb, if_true, Option.some.injEq] at he
          subst he
          unfold Pool.releaseLocked
          by_cases hm : w.pool.mustStop = true
          · simp only [hm, if_true]
            exact ⟨h1, h2, by simp⟩
          · simp only [hm]
            refine ⟨sorted_append_now h1 h2 ev, ?_, by simp⟩
            intro e he
            simp only [Bool.false_eq_true, if_false, List.mem_append, List.mem_singleton] at he
            rcases he with he | he
            · exact h2 e he
            · subst he
              exact le_refl _
        · simp [hf2, hb] at he
    · simp [hf, ha] at hs

/-- With `release` atomic, the free list stays sorted: the invariant passes
through every schedule in which line 114 of a `release` is followed at once by
its critical section. -/
theorem World.sortedInv_run_atomic :
    ∀ (acts : List Action) (w w' : World), atomicReleases acts = true → w.SortedInv →
      World.run w acts = some w' → w'.SortedInv
  | [], w, w', _, hw, h => by
    simp only [World.run, Option.some.injEq] at h
    subst h
    exact hw
  | .stamp a :: .enqueue b :: acts, w, w', hat, hw, h => by
    simp only [atomicReleases, Bool.and_eq_true] at hat
    simp only [World.run] at h
    cases hs : w.step (.stamp a) with
    | none => simp [hs] at h
    | some w1 =>
      simp only [hs] at h
      cases he : w1.step (.enqueue b) with
      | none => simp [he] at h
      | some w2 =>
        simp only [he] at h
        exact World.sortedInv_run_atomic acts w2 w' hat.2 (World.sortedInv_release hw hs he) h
  | [.stamp _], _, _, hat, _, _ => by simp [atomicReleases] at hat
  | .stamp _ :: .tick _ :: _, _, _, hat, _, _ => by simp [atomicReleases] at hat
  | .stamp _ :: .get :: _, _, _, hat, _, _ => by simp [atomicReleases] at hat
  | .stamp _ :: .stamp _ :: _, _, _, hat, _, _ => by simp [atomicReleases] at hat
  | .stamp _ :: .clean _ :: _, _, _, hat, _, _ => by simp [atomicReleases] at hat
  | .stamp _ :: .exit _ :: _, _, _, hat, _, _ => by simp [atomicReleases] at hat
  | .enqueue _ :: _, _, _, hat, _, _ => by simp [atomicReleases] at hat
  | .tick d :: acts, w, w', hat, hw, h => by
    simp only [atomicReleases] at hat
    simp only [World.run] at h
    cases hs : w.step (.tick d) with
    | none => simp [hs] at h
    | some w1 =>
      simp only [hs] at h
      exact World.sortedInv_run_atomic acts w1 w' hat
        (World.sortedInv_step_other hw ⟨by simp, by simp⟩ hs) h
  | .get :: acts, w, w', hat, hw, h => by
    simp only [atomicReleases] at hat
    simp only [World.run] at h
    cases hs : w.step .get with
    | none => simp [hs] at h
    | some w1 =>
      simp only [hs] at h
      exact World.sortedInv_run_atomic acts w1 w' hat
        (World.sortedInv_step_other hw ⟨by simp, by simp⟩ hs) h
  | .clean lag :: acts, w, w', hat, hw, h => by
    simp only [atomicReleases] at hat
    simp only [World.run] at h
    cases hs : w.step (.clean lag) with
    | none => simp [hs] at h
    | some w1 =>
      simp only [hs] at h
      exact World.sortedInv_run_atomic acts w1 w' hat
        (World.sortedInv_step_other hw ⟨by simp, by simp⟩ hs) h
  | .exit a :: acts, w, w', hat, hw, h => by
    simp only [atomicReleases] at hat
    simp only [World.run] at h
    cases hs : w.step (.exit a) with
    | none => simp [hs] at h
    | some w1 =>
      simp only [hs] at h
      exact World.sortedInv_run_atomic acts w1 w' hat
        (World.sortedInv_step_other hw ⟨by simp, by simp⟩ hs) h

/-- Statement C1, as the code has it.  Two workers read the clock at line 114
one after the other and enter the critical section of `release` in the
opposite order: the free list then holds the later stamp before the earlier
one, and the state is reached by steps of `get` and `release` alone. -/
theorem release_race_leaves_free_list_unsorted :
    ∃ w : World,
      World.run (World.init { EvilMaxCount := 2, EvilMaxIdleDuration := 10 * Minute } 0)
        [.get, .get, .tick 1, .stamp 1, .tick 1, .stamp 3, .enqueue 3, .enqueue 1] = some w ∧
      w.pool.evils = [{ addr := 3, lastUseTime := 2, ch := 2 }, { addr := 1, lastUseTime := 1, ch := 0 }] ∧
      ¬ SortedByLastUse w.pool.evils := by
  refine ⟨_, rfl, rfl, ?_⟩
  decide

end Slaves
